import Mathlib

/-!
Verification of the boot-animation zipper utility.

The program discovers folders named (case-insensitively) after the pattern
bootanimation followed by optional digits inside a given directory, validates
that each such folder directly contains a subdirectory part0 and a regular
file desc.txt, and archives each valid folder into a store-only (uncompressed)
zip whose entries are the files found recursively under the folder, with
archive names relative to the folder root.

The filesystem is modelled as a tree of named entries: a node is either a
regular file or a directory holding a list of (name, node) pairs in listing
order (the order the operating system happens to return entries in).  A
possible exception raised while writing an archive is modelled by an oracle
telling, per folder path, whether the write raises.
-/

/-- Kind of node of the modelled filesystem: a regular file, or a directory
with its child entries in listing order. -/
inductive FSNode where
  | file : FSNode
  | dir (entries : List (String × FSNode)) : FSNode

/-- Test whether the node is a directory. -/
def FSNode.isDir : FSNode → Bool
  | .dir _ => true
  | .file => false

/-- Test whether the node is a regular file. -/
def FSNode.isFile : FSNode → Bool
  | .file => true
  | .dir _ => false

/-- Look a name up among directory entries; the first match wins (a real
directory never holds two entries of the same name). -/
def lookupEntry : List (String × FSNode) → String → Option FSNode
  | [], _ => none
  | e :: rest, nm => if e.1 = nm then some e.2 else lookupEntry rest nm

/-- Resolve a direct child of a node by name (a file has no children). -/
def childNode (n : FSNode) (nm : String) : Option FSNode :=
  match n with
  | .file => none
  | .dir es => lookupEntry es nm

/-- Result of Path.exists on a resolved child. -/
def path_exists (p : Option FSNode) : Bool := p.isSome

/-- Result of Path.is_dir on a resolved child. -/
def opt_is_dir : Option FSNode → Bool
  | some n => n.isDir
  | none => false

/-- Result of Path.is_file on a resolved child. -/
def opt_is_file : Option FSNode → Bool
  | some n => n.isFile
  | none => false

/-- Resolve a relative path (a list of name components) from a node. -/
def follow : FSNode → List String → Option FSNode
  | n, [] => some n
  | n, s :: rest =>
      match childNode n s with
      | some c => follow c rest
      | none => none

/-- Kind of the node reached by a relative path: some true for a directory,
some false for a regular file, none when the path resolves to nothing. -/
def kindAt (n : FSNode) (p : List String) : Option Bool :=
  (follow n p).map FSNode.isDir

mutual
/-- Well-formedness of a modelled tree: at every directory the child names
are pairwise distinct, as they are on a real filesystem. -/
def FSNode.wf : FSNode → Bool
  | .file => true
  | .dir es => decide ((es.map Prod.fst).Nodup) && childrenWf es
  termination_by structural n => n
/-- Well-formedness of every node of a list of directory entries. -/
def childrenWf : List (String × FSNode) → Bool
  | [] => true
  | e :: rest => e.2.wf && childrenWf rest
  termination_by structural l => l
end

/-- Names of the direct children of a directory node, in listing order. -/
def dirNames : FSNode → List String
  | .file => []
  | .dir es => es.map Prod.fst

/-- Stable insertion into a sorted list, the model of one step of Python's
stable sort. -/
def ordInsert {α : Type} (le : α → α → Bool) (a : α) : List α → List α
  | [] => [a]
  | b :: l => if le a b then a :: b :: l else b :: ordInsert le a l

/-- Stable sort of a list under a boolean total preorder; this models the
behaviour of Python's sorted and of list.sort, which are stable. -/
def isort {α : Type} (le : α → α → Bool) : List α → List α
  | [] => []
  | a :: l => ordInsert le a (isort le l)

/-- Lexicographic comparison of character lists by code point, the order
Python uses to compare strings. -/
def chars_le : List Char → List Char → Bool
  | [], _ => true
  | _ :: _, [] => false
  | a :: as, b :: bs => if a < b then true else if b < a then false else chars_le as bs

/-- Comparison of strings by code point, as Python compares names. -/
def str_le (a b : String) : Bool := chars_le a.data b.data

/-- Validation of a bootanimation folder, from is_valid_bootanimation_folder:
the folder must directly contain a directory part0 and a regular file
desc.txt. -/
def is_valid_bootanimation_folder (folder : FSNode) : Bool :=
  let part0_path := childNode folder "part0"
  let desc_path := childNode folder "desc.txt"
  let has_part0 := path_exists part0_path && opt_is_dir part0_path
  let has_desc := path_exists desc_path && opt_is_file desc_path
  has_part0 && has_desc

/-- Case-insensitive matching of a literal: strip the literal (given in
lowercase) from the front of the input, comparing each input character
lowered, and return the remaining characters of the input. -/
def matchLit : List Char → List Char → Option (List Char)
  | [], cs => some cs
  | _ :: _, [] => none
  | l :: ls, c :: cs => if c.toLower = l then matchLit ls cs else none

/-- Group 1 of re.match of the pattern anchored bootanimation followed by
optional digits, with IGNORECASE, against a name.  The Python dollar anchor
matches at the end of the string or just before one final newline, so the
digits may be followed by a single trailing newline that is not part of the
group. -/
def boot_group (name : String) : Option (List Char) :=
  match matchLit "bootanimation".data name.data with
  | none => none
  | some rest =>
      if rest.all Char.isDigit then some rest
      else if rest.dropLast.all Char.isDigit && rest.getLast? = some '\n' then
        some rest.dropLast
      else none

/-- Numeric value of a digit string, as Python's int parses it. -/
def digitsToNat (ds : List Char) : Nat :=
  ds.foldl (fun a c => a * 10 + (c.toNat - 48)) 0

/-- Sort key from find_bootanimation_folders: the bare folder gets (0, 0) and
a folder with a nonempty digit suffix gets (1, numeric value of suffix). -/
def sort_key (name : String) : Nat × Nat :=
  match boot_group name with
  | some (c :: cs) => (1, digitsToNat (c :: cs))
  | _ => (0, 0)

/-- Comparison of sort keys: Python compares the pairs lexicographically. -/
def key_le (a b : Nat × Nat) : Bool :=
  decide (a.1 < b.1 ∨ (a.1 = b.1 ∧ a.2 ≤ b.2))

/-- Discovery from find_bootanimation_folders: keep the immediate entries
that are directories whose name matches the pattern, then sort them stably
by sort key.  The input list is the directory listing in iteration order. -/
def find_bootanimation_folders (dirEntries : List (String × FSNode)) : List (String × FSNode) :=
  let matched := dirEntries.filter (fun e => e.2.isDir && (boot_group e.1).isSome)
  isort (fun a b => key_le (sort_key a.1) (sort_key b.1)) matched

/-- Comparison of (name, payload) pairs by name, used when the walk recurses
into subdirectories in sorted name order. -/
def pair_name_le {α : Type} (a b : String × α) : Bool := str_le a.1 b.1

mutual
/-- Archive entry names produced by walking a folder as os.walk does in
zip_folder_store_only: at each directory, the non-directory entries are
written in sorted name order as paths relative to the folder root, then each
subdirectory is visited in sorted name order.  Each entry is the relative
path of one file, as a list of components. -/
def zipEntries : FSNode → List (List String)
  | .file => []
  | .dir es =>
      let cs := zipChildren es
      let fileNames := isort str_le ((cs.filter fun c => !c.2.1).map (fun c => c.1))
      let dirZips := isort pair_name_le ((cs.filter fun c => c.2.1).map (fun c => (c.1, c.2.2)))
      fileNames.map (fun f => [f]) ++ dirZips.flatMap (fun dz => dz.2.map (fun p => dz.1 :: p))
  termination_by structural n => n
/-- Walk results of all children of a directory, each tagged with its name
and whether it is itself a directory. -/
def zipChildren : List (String × FSNode) → List (String × (Bool × List (List String)))
  | [] => []
  | (nm, n) :: rest => (nm, (n.isDir, zipEntries n)) :: zipChildren rest
  termination_by structural l => l
end

/-- Index of the last dot of a name, as pathlib locates a suffix. -/
def last_dot_idx (cs : List Char) : Option Nat :=
  match cs.reverse.findIdx? (fun c => c = '.') with
  | some j => some (cs.length - 1 - j)
  | none => none

/-- Result of Path.with_suffix applied with suffix .zip: the existing suffix,
if the name has one (a last dot that is neither leading nor trailing), is
replaced, and otherwise .zip is appended. -/
def with_suffix_zip (name : String) : String :=
  let cs := name.data
  match last_dot_idx cs with
  | some i =>
      if 0 < i && i + 1 < cs.length then ⟨cs.take i ++ ".zip".data⟩
      else ⟨cs ++ ".zip".data⟩
  | none => ⟨cs ++ ".zip".data⟩

/-- Compression method recorded in the archive; the script opens the zip
with compression ZIP_STORED, so every write stores without compression. -/
inductive ZMethod where
  | stored : ZMethod
  | deflated : ZMethod
deriving DecidableEq

/-- An archive produced by the script: its path, its compression method and
its entry names in writing order. -/
structure Archive where
  name : String
  method : ZMethod
  entries : List (List String)

/-- Body of zip_folder_store_only up to the exception: the walk and the
writes either complete, yielding the archive, or raise, which the oracle
decides per folder path. -/
def zip_write_attempt (oracle : String → Bool) (folder_path : String) (folder : FSNode)
    (output_zip : String) : Except String (List Archive) :=
  if oracle folder_path then Except.error "zip write raised"
  else Except.ok [⟨output_zip, ZMethod.stored, zipEntries folder⟩]

/-- Archiving step from zip_folder_store_only: the attempt is wrapped in a
try block whose except clause catches every exception and returns False, so
the function always returns a boolean instead of propagating. -/
def zip_folder_store_only (oracle : String → Bool) (folder_path : String) (folder : FSNode)
    (output_zip : String) : Bool × List Archive :=
  match zip_write_attempt oracle folder_path folder output_zip with
  | .ok archives => (true, archives)
  | .error _ => (false, [])

/-- Missing artifacts as process_directory reports them when a folder fails
validation: the report re-checks bare existence only, not the kinds used by
validation. -/
def missing_artifacts (folder : FSNode) : List String :=
  (if !path_exists (childNode folder "part0") then ["part0/"] else []) ++
  (if !path_exists (childNode folder "desc.txt") then ["desc.txt"] else [])

/-- Loop of process_directory over the discovered folders: an invalid folder
is skipped and counted as failed before any write is attempted; otherwise
the folder is zipped to its own path with a .zip suffix, counting successful
on True and failed on False.  The result is (successful, failed, archives
written). -/
def process_folders (oracle : String → Bool) :
    List (String × FSNode) → Nat × Nat × List Archive
  | [] => (0, 0, [])
  | folder :: rest =>
      let r := process_folders oracle rest
      if !is_valid_bootanimation_folder folder.2 then
        (r.1, r.2.1 + 1, r.2.2)
      else
        let output_zip := with_suffix_zip folder.1
        let z := zip_folder_store_only oracle folder.1 folder.2 output_zip
        if z.1 then (r.1 + 1, r.2.1, z.2 ++ r.2.2)
        else (r.1, r.2.1 + 1, r.2.2)

/-- Processing of a directory from process_directory: discover the
bootanimation folders of the listing, then run the loop over them. -/
def process_directory (oracle : String → Bool) (dirEntries : List (String × FSNode)) :
    Nat × Nat × List Archive :=
  process_folders oracle (find_bootanimation_folders dirEntries)

/-- Entry point from main, modelled on the argument list after the program
name and a resolver from the argument string to the node it denotes, if any.
The result is the exit status together with whether the usage message was
printed.  Without an argument the usage message is printed and the status is
1; a path that does not resolve or resolves to a non-directory gives status
1; otherwise the directory is processed and the status is 1 exactly when the
failed counter is positive. -/
def main_run (args : List String) (fs : String → Option FSNode) (oracle : String → Bool) :
    Nat × Bool :=
  match args with
  | [] => (1, true)
  | a :: _ =>
      match fs a with
      | none => (1, false)
      | some FSNode.file => (1, false)
      | some (FSNode.dir es) =>
          let r := process_directory oracle es
          (if 0 < r.2.1 then 1 else 0, false)

/-- Specification-side matcher, from the words of the spec: the name is the
literal bootanimation, case-insensitively, optionally followed by a string
of digits. -/
def spec_boot_name (name : String) : Prop :=
  ∃ ps ds : List Char,
    ps.map Char.toLower = "bootanimation".data ∧
    (∀ c ∈ ds, c.isDigit = true) ∧
    name.data = ps ++ ds

/-- Language the code actually accepts: the spec language, except that one
trailing newline may follow the digits, an artifact of the Python dollar
anchor. -/
def spec_boot_name_nl (name : String) : Prop :=
  ∃ ps ds : List Char,
    ps.map Char.toLower = "bootanimation".data ∧
    (∀ c ∈ ds, c.isDigit = true) ∧
    (name.data = ps ++ ds ∨ name.data = ps ++ ds ++ ['\n'])

/-- Numeric suffix of a discovered folder name, none for the bare folder. -/
def suffix_val (name : String) : Option Nat :=
  match boot_group name with
  | some (c :: cs) => some (digitsToNat (c :: cs))
  | _ => none

/-- Ordering the spec asks of discovery output: a name without digit suffix
precedes every name with one, and names with digit suffixes are in ascending
numeric order. -/
def spec_precedes (a b : String) : Prop :=
  match suffix_val a, suffix_val b with
  | none, _ => True
  | some _, none => False
  | some m, some n => m ≤ n

/-- Induction over the filesystem tree: to prove a property of every node it
suffices to prove it of files and of directories assuming it of every child. -/
def FSNode.indOn {motive : FSNode → Prop} (hfile : motive .file)
    (hdir : ∀ es, (∀ e ∈ es, motive e.2) → motive (.dir es)) : ∀ n, motive n
  | .file => hfile
  | .dir es => hdir es (fun e he => FSNode.indOn hfile hdir e.2)
termination_by n => sizeOf n
decreasing_by
  have := List.sizeOf_lt_of_mem he
  cases e
  simp at *
  omega

/-- Concrete valid folder: part0 directory with two frames and a desc.txt. -/
def folder_ok : FSNode :=
  .dir [("part0", .dir [("b.png", .file), ("a.png", .file)]), ("desc.txt", .file)]

/-- Concrete valid folder whose part0 directory is empty, so the archive has
an entry for desc.txt and nothing for part0. -/
def folder_empty_part0 : FSNode := .dir [("part0", .dir []), ("desc.txt", .file)]

/-- Concrete folder where both required names exist but part0 is a regular
file, so validation fails while the existence checks both pass. -/
def folder_part0_file : FSNode := .dir [("part0", .file), ("desc.txt", .file)]

/-- Entries of a valid folder in one listing order. -/
def listingA : List (String × FSNode) :=
  [("part0", .dir [("x.png", .file)]), ("desc.txt", .file)]

/-- Entries of the same folder in the reversed listing order. -/
def listingB : List (String × FSNode) :=
  [("desc.txt", .file), ("part0", .dir [("x.png", .file)])]

/-- Resolver mapping the path d to a directory holding one bootanimation
folder that fails validation. -/
def fs_one_bad : String → Option FSNode :=
  fun s => if s = "d" then some (.dir [("bootanimation", .dir [])]) else none

/-- Resolver mapping the path d to a directory with no folder matching the
bootanimation pattern. -/
def fs_no_match : String → Option FSNode :=
  fun s => if s = "d" then some (.dir [("other", .dir []), ("x", .file)]) else none

/-- Resolver mapping the path d to a directory holding one valid
bootanimation folder. -/
def fs_one_good : String → Option FSNode :=
  fun s => if s = "d" then some (.dir [("bootanimation", folder_ok)]) else none

/-- Oracle under which no archive write raises. -/
def no_err : String → Bool := fun _ => false

/-- Oracle under which every archive write raises. -/
def all_err : String → Bool := fun _ => true

example : zipEntries (.dir [("part0", .dir [("b.png", .file), ("a.png", .file)]), ("desc.txt", .file)]) =
    [["desc.txt"], ["part0", "a.png"], ["part0", "b.png"]] := by decide

example : boot_group "BootAnimation07" = some ['0', '7'] := by decide

example : boot_group "bootanimation\n" = some [] := by decide

example : find_bootanimation_folders
    [("bootanimation2", .dir []), ("other", .dir []), ("bootanimation", .dir []), ("bootanimation10", .dir []), ("x", .file)] =
    [("bootanimation", .dir []), ("bootanimation2", .dir []), ("bootanimation10", .dir [])] := rfl

example : with_suffix_zip "bootanimation01" = "bootanimation01.zip" := by decide

example : with_suffix_zip "a.old" = "a.zip" := by decide

/-! Order facts about the comparison functions. -/

theorem chars_le_total : ∀ a b : List Char, chars_le a b = true ∨ chars_le b a = true := by
  intro a
  induction a with
  | nil => intro b; left; rfl
  | cons x xs ih =>
      intro b
      cases b with
      | nil => right; rfl
      | cons y ys =>
          rcases lt_trichotomy x y with h | h | h
          · left; simp [chars_le, h]
          · subst h
            simp only [chars_le, if_neg (lt_irrefl x)]
            exact ih ys
          · right; simp [chars_le, h]

theorem chars_le_trans : ∀ a b c : List Char,
    chars_le a b = true → chars_le b c = true → chars_le a c = true := by
  intro a
  induction a with
  | nil => intro b c _ _; rfl
  | cons x xs ih =>
      intro b c hab hbc
      cases b with
      | nil => simp [chars_le] at hab
      | cons y ys =>
          cases c with
          | nil => simp [chars_le] at hbc
          | cons z zs =>
              simp only [chars_le] at hab hbc ⊢
              rcases lt_trichotomy x y with h1 | h1 | h1
              · rcases lt_trichotomy y z with h2 | h2 | h2
                · simp [h1.trans h2]
                · subst h2; simp [h1]
                · rw [if_pos h1] at hab
                  rw [if_neg (not_lt_of_gt h2), if_pos h2] at hbc
                  exact absurd hbc (by simp)
              · subst h1
                rw [if_neg (lt_irrefl x), if_neg (lt_irrefl x)] at hab
                rcases lt_trichotomy x z with h2 | h2 | h2
                · simp [h2]
                · subst h2
                  rw [if_neg (lt_irrefl x), if_neg (lt_irrefl x)] at hbc ⊢
                  exact ih ys zs hab hbc
                · rw [if_neg (not_lt_of_gt h2), if_pos h2] at hbc
                  exact absurd hbc (by simp)
              · rw [if_neg (not_lt_of_gt h1), if_pos h1] at hab
                exact absurd hab (by simp)

theorem chars_le_antisymm : ∀ a b : List Char,
    chars_le a b = true → chars_le b a = true → a = b := by
  intro a
  induction a with
  | nil =>
      intro b _ hba
      cases b with
      | nil => rfl
      | cons y ys => simp [chars_le] at hba
  | cons x xs ih =>
      intro b hab hba
      cases b with
      | nil => simp [chars_le] at hab
      | cons y ys =>
          rcases lt_trichotomy x y with h | h | h
          · rw [chars_le, if_neg (not_lt_of_gt h), if_pos h] at hba
            exact absurd hba (by simp)
          · subst h
            rw [chars_le, if_neg (lt_irrefl x), if_neg (lt_irrefl x)] at hab hba
            rw [ih ys hab hba]
          · rw [chars_le, if_neg (not_lt_of_gt h), if_pos h] at hab
            exact absurd hab (by simp)

theorem str_ext {s t : String} (h : s.data = t.data) : s = t := by
  cases s; cases t; exact congrArg String.mk h

theorem str_le_total (a b : String) : str_le a b = true ∨ str_le b a = true :=
  chars_le_total a.data b.data

theorem str_le_trans (a b c : String) :
    str_le a b = true → str_le b c = true → str_le a c = true :=
  chars_le_trans a.data b.data c.data

theorem str_le_antisymm (a b : String) :
    str_le a b = true → str_le b a = true → a = b := by
  intro h1 h2
  exact str_ext (chars_le_antisymm a.data b.data h1 h2)

theorem key_le_iff (a b : Nat × Nat) :
    key_le a b = true ↔ (a.1 < b.1 ∨ (a.1 = b.1 ∧ a.2 ≤ b.2)) := by
  simp [key_le]

theorem key_le_total (a b : Nat × Nat) : key_le a b = true ∨ key_le b a = true := by
  simp only [key_le_iff]
  omega

theorem key_le_trans (a b c : Nat × Nat) :
    key_le a b = true → key_le b c = true → key_le a c = true := by
  simp only [key_le_iff]
  omega

/-! Facts about the stable sort. -/

theorem ordInsert_perm {α : Type} (le : α → α → Bool) (a : α) :
    ∀ l : List α, (ordInsert le a l).Perm (a :: l) := by
  intro l
  induction l with
  | nil => exact List.Perm.refl _
  | cons b l ih =>
      by_cases h : le a b = true
      · simp [ordInsert, h]
      · simp only [ordInsert, if_neg h]
        exact (ih.cons b).trans (List.Perm.swap a b l)

theorem isort_perm {α : Type} (le : α → α → Bool) :
    ∀ l : List α, (isort le l).Perm l := by
  intro l
  induction l with
  | nil => exact List.Perm.refl _
  | cons a l ih =>
      exact (ordInsert_perm le a (isort le l)).trans (ih.cons a)

theorem mem_isort {α : Type} (le : α → α → Bool) {a : α} {l : List α} :
    a ∈ isort le l ↔ a ∈ l :=
  (isort_perm le l).mem_iff

theorem pairwise_ordInsert {α : Type} (le : α → α → Bool)
    (htrans : ∀ a b c, le a b = true → le b c = true → le a c = true)
    (htotal : ∀ a b, le a b = true ∨ le b a = true) (a : α) :
    ∀ l : List α, l.Pairwise (fun x y => le x y = true) →
      (ordInsert le a l).Pairwise (fun x y => le x y = true) := by
  intro l
  induction l with
  | nil => intro _; simp [ordInsert]
  | cons b l ih =>
      intro hp
      rcases List.pairwise_cons.mp hp with ⟨hb, hl⟩
      by_cases h : le a b = true
      · simp only [ordInsert, if_pos h]
        refine List.pairwise_cons.mpr ⟨?_, hp⟩
        intro x hx
        rcases List.mem_cons.mp hx with rfl | hx
        · exact h
        · exact htrans a b x h (hb x hx)
      · simp only [ordInsert, if_neg h]
        refine List.pairwise_cons.mpr ⟨?_, ih hl⟩
        intro x hx
        rcases List.mem_cons.mp ((ordInsert_perm le a l).mem_iff.mp hx) with rfl | hxl
        · rcases htotal x b with h1 | h1
          · exact absurd h1 h
          · exact h1
        · exact hb x hxl

theorem pairwise_isort {α : Type} (le : α → α → Bool)
    (htrans : ∀ a b c, le a b = true → le b c = true → le a c = true)
    (htotal : ∀ a b, le a b = true ∨ le b a = true) :
    ∀ l : List α, (isort le l).Pairwise (fun x y => le x y = true) := by
  intro l
  induction l with
  | nil => simp [isort]
  | cons a l ih =>
      exact pairwise_ordInsert le htrans htotal a (isort le l) ih

/-- Uniqueness of a sorted list: two lists that are permutations of each
other, both sorted under a boolean preorder on a key, with no duplicate key,
are equal. -/
theorem eq_of_perm_sorted_nodup_key {α β : Type} (key : α → β) (le : β → β → Bool)
    (hanti : ∀ x y : β, le x y = true → le y x = true → x = y) :
    ∀ (l₁ l₂ : List α), l₁.Perm l₂ →
      l₁.Pairwise (fun a b => le (key a) (key b) = true) →
      l₂.Pairwise (fun a b => le (key a) (key b) = true) →
      (l₁.map key).Nodup → l₁ = l₂ := by
  intro l₁
  induction l₁ with
  | nil =>
      intro l₂ hp _ _ _
      exact (hp.nil_eq).symm ▸ rfl
  | cons a t₁ ih =>
      intro l₂ hp s₁ s₂ nd
      cases l₂ with
      | nil => exact absurd hp.symm.nil_eq (by simp)
      | cons b t₂ =>
          rcases List.pairwise_cons.mp s₁ with ⟨ha, st₁⟩
          rcases List.pairwise_cons.mp s₂ with ⟨hbb, st₂⟩
          rcases (by simpa using nd :
            (∀ x ∈ t₁, ¬key x = key a) ∧ (t₁.map key).Nodup) with ⟨hka, ndt⟩
          have hab : a = b := by
            by_contra hne
            have hamem : a ∈ b :: t₂ := hp.mem_iff.mp (List.mem_cons_self a t₁)
            have hat₂ : a ∈ t₂ := by
              rcases List.mem_cons.mp hamem with h | h
              · exact absurd h hne
              · exact h
            have hbmem : b ∈ a :: t₁ := hp.mem_iff.mpr (List.mem_cons_self b t₂)
            have hbt₁ : b ∈ t₁ := by
              rcases List.mem_cons.mp hbmem with h | h
              · exact absurd h.symm hne
              · exact h
            have h1 : le (key a) (key b) = true := ha b hbt₁
            have h2 : le (key b) (key a) = true := hbb a hat₂
            have : key a = key b := hanti _ _ h1 h2
            exact hka b hbt₁ this.symm
          subst hab
          have ht : t₁.Perm t₂ := hp.cons_inv
          rw [ih t₂ ht st₁ st₂ ndt]

/-! Facts about lookup, well-formedness and path resolution. -/

theorem lookupEntry_mem {es : List (String × FSNode)} {nm : String} {n : FSNode}
    (h : lookupEntry es nm = some n) : (nm, n) ∈ es := by
  induction es with
  | nil => simp [lookupEntry] at h
  | cons e rest ih =>
      by_cases he : e.1 = nm
      · rw [lookupEntry, if_pos he] at h
        have h2 : e.2 = n := Option.some.inj h
        have hne : (nm, n) = e := by
          cases e
          simp_all
        rw [hne]
        exact List.mem_cons_self e rest
      · rw [lookupEntry, if_neg he] at h
        exact List.mem_cons_of_mem e (ih h)

theorem mem_lookupEntry {es : List (String × FSNode)} {nm : String} {n : FSNode}
    (nd : (es.map Prod.fst).Nodup) (h : (nm, n) ∈ es) : lookupEntry es nm = some n := by
  induction es with
  | nil => simp at h
  | cons e rest ih =>
      rcases (by simpa using nd :
        (∀ x : FSNode, (e.1, x) ∉ rest) ∧ (rest.map Prod.fst).Nodup) with ⟨hout, ndrest⟩
      rcases List.mem_cons.mp h with rfl | hmem
      · rw [lookupEntry, if_pos rfl]
      · have hne : e.1 ≠ nm := by
          intro heq
          exact hout n (heq ▸ hmem)
        rw [lookupEntry, if_neg hne]
        exact ih ndrest hmem

theorem lookupEntry_isSome {es : List (String × FSNode)} {nm : String}
    (h : (lookupEntry es nm).isSome = true) : ∃ n, lookupEntry es nm = some n ∧ (nm, n) ∈ es := by
  rcases Option.isSome_iff_exists.mp h with ⟨n, hn⟩
  exact ⟨n, hn, lookupEntry_mem hn⟩

theorem childrenWf_iff : ∀ es : List (String × FSNode),
    childrenWf es = true ↔ ∀ e ∈ es, e.2.wf = true := by
  intro es
  induction es with
  | nil => simp [childrenWf]
  | cons e rest ih =>
      rw [childrenWf, Bool.and_eq_true, ih]
      constructor
      · rintro ⟨h1, h2⟩ x hx
        rcases List.mem_cons.mp hx with rfl | hx
        · exact h1
        · exact h2 x hx
      · intro h
        exact ⟨h e (List.mem_cons_self e rest), fun x hx => h x (List.mem_cons_of_mem e hx)⟩

theorem wf_dir_iff (es : List (String × FSNode)) :
    (FSNode.dir es).wf = true ↔ (es.map Prod.fst).Nodup ∧ ∀ e ∈ es, e.2.wf = true := by
  rw [FSNode.wf, Bool.and_eq_true, childrenWf_iff, decide_eq_true_eq]

theorem follow_dir_cons (es : List (String × FSNode)) (s : String) (p : List String) :
    follow (FSNode.dir es) (s :: p) =
      match lookupEntry es s with
      | some c => follow c p
      | none => none := rfl

theorem follow_file_cons (s : String) (p : List String) :
    follow FSNode.file (s :: p) = none := rfl

/-! Structure of the walk. -/

theorem zipChildren_eq (es : List (String × FSNode)) :
    zipChildren es = es.map (fun e => (e.1, (e.2.isDir, zipEntries e.2))) := by
  induction es with
  | nil => rfl
  | cons e rest ih =>
      cases e
      rw [zipChildren, ih]
      rfl

theorem zipEntries_dir (es : List (String × FSNode)) :
    zipEntries (.dir es) =
      (isort str_le ((es.filter (fun e => !e.2.isDir)).map (fun e => e.1))).map (fun f => [f]) ++
      (isort pair_name_le
          ((es.filter (fun e => e.2.isDir)).map (fun e => (e.1, zipEntries e.2)))).flatMap
        (fun dz => dz.2.map (fun p => dz.1 :: p)) := by
  rw [zipEntries, zipChildren_eq]
  rw [List.filter_map, List.filter_map, List.map_map, List.map_map]
  rfl

theorem follow_dir_lookup (es : List (String × FSNode)) (s : String) (p : List String)
    {c : FSNode} (h : lookupEntry es s = some c) :
    follow (FSNode.dir es) (s :: p) = follow c p := by
  rw [follow_dir_cons, h]

/-- Characterization of the archive entries of a well-formed folder: the
entry names are exactly the nonempty relative paths that resolve to a
regular file under the folder. -/
theorem mem_zipEntries_iff :
    ∀ n : FSNode, n.wf = true →
      ∀ p, p ∈ zipEntries n ↔ (p ≠ [] ∧ follow n p = some FSNode.file) := by
  intro n
  induction n using FSNode.indOn with
  | hfile =>
      intro _ p
      constructor
      · intro hp
        simp [zipEntries] at hp
      · rintro ⟨hne, hf⟩
        cases p with
        | nil => exact absurd rfl hne
        | cons s q => rw [follow_file_cons] at hf; exact absurd hf (by simp)
  | hdir es ih =>
      intro hwf p
      rcases (wf_dir_iff es).mp hwf with ⟨nd, hcwf⟩
      rw [zipEntries_dir]
      constructor
      · intro hp
        rcases List.mem_append.mp hp with hA | hB
        · rcases List.mem_map.mp hA with ⟨f, hf, rfl⟩
          rcases List.mem_map.mp ((mem_isort _).mp hf) with ⟨e, he, rfl⟩
          obtain ⟨nm, c⟩ := e
          rcases List.mem_filter.mp he with ⟨hees, hnd⟩
          have hcfile : c = FSNode.file := by
            cases c
            · rfl
            · simp [FSNode.isDir] at hnd
          subst hcfile
          refine ⟨by simp, ?_⟩
          rw [follow_dir_lookup es nm [] (mem_lookupEntry nd hees)]
          rfl
        · rcases List.mem_flatMap.mp hB with ⟨dz, hdz, hpd⟩
          rcases List.mem_map.mp hpd with ⟨q, hq, rfl⟩
          rcases List.mem_map.mp ((mem_isort _).mp hdz) with ⟨e, he, rfl⟩
          obtain ⟨nm, c⟩ := e
          rcases List.mem_filter.mp he with ⟨hees, hisdir⟩
          have hcwfc : c.wf = true := hcwf (nm, c) hees
          rcases (ih (nm, c) hees hcwfc q).mp hq with ⟨hqne, hqf⟩
          refine ⟨by simp, ?_⟩
          rw [follow_dir_lookup es nm q (mem_lookupEntry nd hees)]
          exact hqf
      · rintro ⟨hne, hf⟩
        cases p with
        | nil => exact absurd rfl hne
        | cons s q =>
            cases hl : lookupEntry es s with
            | none =>
                rw [follow_dir_cons, hl] at hf
                exact absurd hf (by simp)
            | some c =>
                rw [follow_dir_lookup es s q hl] at hf
                have hmem : (s, c) ∈ es := lookupEntry_mem hl
                cases c with
                | file =>
                    cases q with
                    | nil =>
                        apply List.mem_append.mpr
                        left
                        apply List.mem_map.mpr
                        refine ⟨s, ?_, rfl⟩
                        apply (mem_isort _).mpr
                        apply List.mem_map.mpr
                        refine ⟨(s, FSNode.file), ?_, rfl⟩
                        exact List.mem_filter.mpr ⟨hmem, by simp [FSNode.isDir]⟩
                    | cons s2 q2 =>
                        rw [follow_file_cons] at hf
                        exact absurd hf (by simp)
                | dir es2 =>
                    have hqne : q ≠ [] := by
                      intro hq0
                      subst hq0
                      exact absurd (Option.some.inj hf) (by simp)
                    have hq : q ∈ zipEntries (FSNode.dir es2) :=
                      (ih (s, FSNode.dir es2) hmem (hcwf (s, FSNode.dir es2) hmem) q).mpr
                        ⟨hqne, hf⟩
                    apply List.mem_append.mpr
                    right
                    apply List.mem_flatMap.mpr
                    refine ⟨(s, zipEntries (FSNode.dir es2)), ?_, ?_⟩
                    · apply (mem_isort _).mpr
                      apply List.mem_map.mpr
                      refine ⟨(s, FSNode.dir es2), ?_, rfl⟩
                      exact List.mem_filter.mpr ⟨hmem, by simp [FSNode.isDir]⟩
                    · exact List.mem_map.mpr ⟨q, hq, rfl⟩

theorem follow_dir_single (es : List (String × FSNode)) (nm : String) :
    follow (FSNode.dir es) [nm] = lookupEntry es nm := by
  cases hl : lookupEntry es nm with
  | none => rw [follow_dir_cons, hl]
  | some c => rw [follow_dir_cons, hl]; rfl

theorem kindAt_dir_single (es : List (String × FSNode)) (nm : String) :
    kindAt (FSNode.dir es) [nm] = (lookupEntry es nm).map FSNode.isDir := by
  rw [kindAt, follow_dir_single]

theorem kindAt_dir_lookup (es : List (String × FSNode)) (nm : String) (p : List String)
    {c : FSNode} (h : lookupEntry es nm = some c) :
    kindAt (FSNode.dir es) (nm :: p) = kindAt c p := by
  rw [kindAt, follow_dir_lookup es nm p h, kindAt]

theorem pair_name_le_trans {α : Type} (a b c : String × α) :
    pair_name_le a b = true → pair_name_le b c = true → pair_name_le a c = true :=
  str_le_trans a.1 b.1 c.1

theorem pair_name_le_total {α : Type} (a b : String × α) :
    pair_name_le a b = true ∨ pair_name_le b a = true :=
  str_le_total a.1 b.1

theorem mem_fileNames_iff (es : List (String × FSNode))
    (nd : (es.map Prod.fst).Nodup) (nm : String) :
    nm ∈ (es.filter (fun e => !e.2.isDir)).map (fun e => e.1) ↔
      ∃ c, lookupEntry es nm = some c ∧ c.isDir = false := by
  constructor
  · intro h
    rcases List.mem_map.mp h with ⟨e, he, heq⟩
    obtain ⟨enm, c⟩ := e
    rcases List.mem_filter.mp he with ⟨hees, hd⟩
    have h1 : enm = nm := heq
    subst h1
    exact ⟨c, mem_lookupEntry nd hees, by simpa using hd⟩
  · rintro ⟨c, hl, hd⟩
    apply List.mem_map.mpr
    refine ⟨(nm, c), ?_, rfl⟩
    exact List.mem_filter.mpr ⟨lookupEntry_mem hl, by simpa using hd⟩

theorem mem_dirPairs_iff (es : List (String × FSNode))
    (nd : (es.map Prod.fst).Nodup) (nm : String) (z : List (List String)) :
    (nm, z) ∈ (es.filter (fun e => e.2.isDir)).map (fun e => (e.1, zipEntries e.2)) ↔
      ∃ c, lookupEntry es nm = some c ∧ c.isDir = true ∧ z = zipEntries c := by
  constructor
  · intro h
    rcases List.mem_map.mp h with ⟨e, he, heq⟩
    obtain ⟨enm, c⟩ := e
    rcases List.mem_filter.mp he with ⟨hees, hd⟩
    have h1 : enm = nm := congrArg Prod.fst heq
    have h2 : zipEntries c = z := congrArg Prod.snd heq
    subst h1
    exact ⟨c, mem_lookupEntry nd hees, hd, h2.symm⟩
  · rintro ⟨c, hl, hd, rfl⟩
    apply List.mem_map.mpr
    refine ⟨(nm, c), ?_, rfl⟩
    exact List.mem_filter.mpr ⟨lookupEntry_mem hl, hd⟩

theorem fileNames_nodup (es : List (String × FSNode)) (nd : (es.map Prod.fst).Nodup) :
    ((es.filter (fun e => !e.2.isDir)).map (fun e => e.1)).Nodup := by
  have hsub : List.Sublist ((es.filter (fun e => !e.2.isDir)).map (fun e => e.1))
      (es.map Prod.fst) := (List.filter_sublist es).map Prod.fst
  exact nd.sublist hsub

theorem dirPairs_key_nodup (es : List (String × FSNode)) (nd : (es.map Prod.fst).Nodup) :
    (((es.filter (fun e => e.2.isDir)).map (fun e => (e.1, zipEntries e.2))).map Prod.fst).Nodup := by
  have heq : ((es.filter (fun e => e.2.isDir)).map (fun e => (e.1, zipEntries e.2))).map Prod.fst =
      (es.filter (fun e => e.2.isDir)).map (fun e => e.1) := by
    rw [List.map_map]
    rfl
  rw [heq]
  have hsub : List.Sublist ((es.filter (fun e => e.2.isDir)).map (fun e => e.1))
      (es.map Prod.fst) := (List.filter_sublist es).map Prod.fst
  exact nd.sublist hsub

/-- Determinism of the walk: two well-formed trees that expose the same kind
of node along every relative path produce identical archive entry lists, no
matter how each directory listing happened to be ordered. -/
theorem zipEntries_ext :
    ∀ f : FSNode, f.wf = true → ∀ g : FSNode, g.wf = true →
      (∀ p, kindAt f p = kindAt g p) → zipEntries f = zipEntries g := by
  intro f
  induction f using FSNode.indOn with
  | hfile =>
      intro _ g _ hk
      cases g with
      | file => rfl
      | dir es2 =>
          have h0 := hk []
          simp [kindAt, follow, FSNode.isDir] at h0
  | hdir es ih =>
      intro hwf g hgwf hk
      cases g with
      | file =>
          have h0 := hk []
          simp [kindAt, follow, FSNode.isDir] at h0
      | dir es2 =>
          rcases (wf_dir_iff es).mp hwf with ⟨nd, hcwf⟩
          rcases (wf_dir_iff es2).mp hgwf with ⟨nd2, hcwf2⟩
          have hkind : ∀ nm, (lookupEntry es nm).map FSNode.isDir =
              (lookupEntry es2 nm).map FSNode.isDir := by
            intro nm
            have := hk [nm]
            rwa [kindAt_dir_single, kindAt_dir_single] at this
          -- the sorted file name lists agree
          have hfiles : isort str_le ((es.filter (fun e => !e.2.isDir)).map (fun e => e.1)) =
              isort str_le ((es2.filter (fun e => !e.2.isDir)).map (fun e => e.1)) := by
            have hmemiff : ∀ nm, nm ∈ (es.filter (fun e => !e.2.isDir)).map (fun e => e.1) ↔
                nm ∈ (es2.filter (fun e => !e.2.isDir)).map (fun e => e.1) := by
              intro nm
              rw [mem_fileNames_iff es nd nm, mem_fileNames_iff es2 nd2 nm]
              constructor
              · rintro ⟨c, hl, hd⟩
                have := hkind nm
                rw [hl] at this
                cases hl2 : lookupEntry es2 nm with
                | none => rw [hl2] at this; exact absurd this (by simp)
                | some c2 =>
                    rw [hl2] at this
                    refine ⟨c2, rfl, ?_⟩
                    have : c.isDir = c2.isDir := by simpa using this
                    rw [← this, hd]
              · rintro ⟨c, hl, hd⟩
                have := hkind nm
                rw [hl] at this
                cases hl2 : lookupEntry es nm with
                | none => rw [hl2] at this; exact absurd this (by simp)
                | some c2 =>
                    rw [hl2] at this
                    refine ⟨c2, rfl, ?_⟩
                    have : c2.isDir = c.isDir := by simpa using this
                    rw [this, hd]
            have hperm : ((es.filter (fun e => !e.2.isDir)).map (fun e => e.1)).Perm
                ((es2.filter (fun e => !e.2.isDir)).map (fun e => e.1)) :=
              (List.perm_ext_iff_of_nodup (fileNames_nodup es nd) (fileNames_nodup es2 nd2)).mpr
                hmemiff
            apply eq_of_perm_sorted_nodup_key (fun x => x) str_le str_le_antisymm
            · exact ((isort_perm _ _).trans hperm).trans (isort_perm _ _).symm
            · exact pairwise_isort str_le str_le_trans str_le_total _
            · exact pairwise_isort str_le str_le_trans str_le_total _
            · rw [List.map_id']
              exact ((isort_perm _ _).nodup_iff).mpr (fileNames_nodup es nd)
          -- the sorted subdirectory walk lists agree
          have hdirs : isort pair_name_le
                ((es.filter (fun e => e.2.isDir)).map (fun e => (e.1, zipEntries e.2))) =
              isort pair_name_le
                ((es2.filter (fun e => e.2.isDir)).map (fun e => (e.1, zipEntries e.2))) := by
            have hmemiff : ∀ dz : String × List (List String),
                dz ∈ (es.filter (fun e => e.2.isDir)).map (fun e => (e.1, zipEntries e.2)) ↔
                dz ∈ (es2.filter (fun e => e.2.isDir)).map (fun e => (e.1, zipEntries e.2)) := by
              rintro ⟨nm, z⟩
              rw [mem_dirPairs_iff es nd nm z, mem_dirPairs_iff es2 nd2 nm z]
              constructor
              · rintro ⟨c, hl, hd, rfl⟩
                have hkc := hkind nm
                rw [hl] at hkc
                cases hl2 : lookupEntry es2 nm with
                | none => rw [hl2] at hkc; exact absurd hkc (by simp)
                | some c2 =>
                    rw [hl2] at hkc
                    have hd2 : c2.isDir = true := by
                      have : c.isDir = c2.isDir := by simpa using hkc
                      rw [← this, hd]
                    refine ⟨c2, rfl, hd2, ?_⟩
                    have hmem : (nm, c) ∈ es := lookupEntry_mem hl
                    exact ih (nm, c) hmem (hcwf (nm, c) hmem) c2
                      (hcwf2 (nm, c2) (lookupEntry_mem hl2))
                      (fun p => by
                        have := hk (nm :: p)
                        rwa [kindAt_dir_lookup es nm p hl,
                          kindAt_dir_lookup es2 nm p hl2] at this)
              · rintro ⟨c2, hl2, hd2, rfl⟩
                have hkc := hkind nm
                rw [hl2] at hkc
                cases hl : lookupEntry es nm with
                | none => rw [hl] at hkc; exact absurd hkc (by simp)
                | some c =>
                    rw [hl] at hkc
                    have hd : c.isDir = true := by
                      have : c.isDir = c2.isDir := by simpa using hkc
                      rw [this, hd2]
                    refine ⟨c, rfl, hd, ?_⟩
                    have hmem : (nm, c) ∈ es := lookupEntry_mem hl
                    exact (ih (nm, c) hmem (hcwf (nm, c) hmem) c2
                      (hcwf2 (nm, c2) (lookupEntry_mem hl2))
                      (fun p => by
                        have := hk (nm :: p)
                        rwa [kindAt_dir_lookup es nm p hl,
                          kindAt_dir_lookup es2 nm p hl2] at this)).symm
            have hperm : ((es.filter (fun e => e.2.isDir)).map (fun e => (e.1, zipEntries e.2))).Perm
                ((es2.filter (fun e => e.2.isDir)).map (fun e => (e.1, zipEntries e.2))) :=
              (List.perm_ext_iff_of_nodup
                ((dirPairs_key_nodup es nd).of_map Prod.fst)
                ((dirPairs_key_nodup es2 nd2).of_map Prod.fst)).mpr hmemiff
            apply eq_of_perm_sorted_nodup_key Prod.fst str_le str_le_antisymm
            · exact ((isort_perm _ _).trans hperm).trans (isort_perm _ _).symm
            · exact (pairwise_isort pair_name_le pair_name_le_trans pair_name_le_total _).imp
                (fun h => h)
            · exact (pairwise_isort pair_name_le pair_name_le_trans pair_name_le_total _).imp
                (fun h => h)
            · exact (((isort_perm _ _).map Prod.fst).nodup_iff).mpr (dirPairs_key_nodup es nd)
          rw [zipEntries_dir, zipEntries_dir, hfiles, hdirs]

/-! Characterization of the pattern matcher. -/

theorem matchLit_eq_some_iff :
    ∀ (ls cs rest : List Char),
      matchLit ls cs = some rest ↔ ∃ ps, cs = ps ++ rest ∧ ps.map Char.toLower = ls := by
  intro ls
  induction ls with
  | nil =>
      intro cs rest
      constructor
      · intro h
        exact ⟨[], by simpa using Option.some.inj h, rfl⟩
      · rintro ⟨ps, hcs, hmap⟩
        have hps : ps = [] := by simpa using hmap
        subst hps
        simp only [List.nil_append] at hcs
        rw [matchLit, hcs]
  | cons l ls ih =>
      intro cs rest
      cases cs with
      | nil =>
          constructor
          · intro h
            simp [matchLit] at h
          · rintro ⟨ps, hcs, hmap⟩
            have hps : ps = [] := by
              cases ps with
              | nil => rfl
              | cons p ps2 => simp at hcs
            subst hps
            simp at hmap
      | cons c cs =>
          by_cases hc : c.toLower = l
          · rw [matchLit, if_pos hc, ih cs rest]
            constructor
            · rintro ⟨ps, hcs, hmap⟩
              exact ⟨c :: ps, by simp [hcs], by simp [hmap, hc]⟩
            · rintro ⟨ps, hcs, hmap⟩
              cases ps with
              | nil => simp at hmap
              | cons p ps2 =>
                  have h1 : c = p ∧ cs = ps2 ++ rest := by simpa using hcs
                  obtain ⟨rfl, hcs2⟩ := h1
                  simp only [List.map_cons, List.cons.injEq] at hmap
                  exact ⟨ps2, hcs2, hmap.2⟩
          · rw [matchLit, if_neg hc]
            constructor
            · intro h
              exact absurd h (by simp)
            · rintro ⟨ps, hcs, hmap⟩
              cases ps with
              | nil => simp at hmap
              | cons p ps2 =>
                  have hpc : p = c := by
                    have := congrArg (fun t => t.head?) hcs
                    simpa using this.symm
                  subst hpc
                  simp only [List.map_cons, List.cons.injEq] at hmap
                  exact absurd hmap.1 hc

theorem boot_group_of_matchLit {name : String} {rest : List Char}
    (hm : matchLit "bootanimation".data name.data = some rest) :
    boot_group name =
      if rest.all Char.isDigit then some rest
      else if rest.dropLast.all Char.isDigit && rest.getLast? = some '\n' then
        some rest.dropLast
      else none := by
  simp only [boot_group, hm]

theorem boot_group_of_matchLit_none {name : String}
    (hm : matchLit "bootanimation".data name.data = none) :
    boot_group name = none := by
  simp only [boot_group, hm]

theorem boot_group_isSome_iff (name : String) :
    (boot_group name).isSome = true ↔ spec_boot_name_nl name := by
  constructor
  · intro h
    cases hm : matchLit "bootanimation".data name.data with
    | none => rw [boot_group_of_matchLit_none hm] at h; simp at h
    | some rest =>
        rw [boot_group_of_matchLit hm] at h
        rcases (matchLit_eq_some_iff _ _ _).mp hm with ⟨ps, hcs, hmap⟩
        by_cases h1 : rest.all Char.isDigit = true
        · exact ⟨ps, rest, hmap, fun c hc => List.all_eq_true.mp h1 c hc, Or.inl hcs⟩
        · rw [if_neg h1] at h
          split at h
          next h2 =>
            rcases (by simpa using h2 :
              rest.dropLast.all Char.isDigit = true ∧ rest.getLast? = some '\n') with ⟨h2a, h2c⟩
            have hne : rest ≠ [] := by
              intro h0
              rw [h0] at h2c
              simp at h2c
            have hlast : rest.getLast hne = '\n' := by
              have hg := List.getLast?_eq_getLast rest hne
              rw [hg] at h2c
              simpa using h2c
            have hrest : rest.dropLast ++ ['\n'] = rest := by
              rw [← hlast]
              exact List.dropLast_append_getLast hne
            refine ⟨ps, rest.dropLast, hmap,
              fun c hc => List.all_eq_true.mp h2a c hc, Or.inr ?_⟩
            rw [hcs, List.append_assoc, hrest]
          next h2 => simp at h
  · rintro ⟨ps, ds, hmap, hdig, hcase | hcase⟩
    · have hm : matchLit "bootanimation".data name.data = some ds :=
        (matchLit_eq_some_iff _ _ _).mpr ⟨ps, hcase, hmap⟩
      rw [boot_group_of_matchLit hm, if_pos (List.all_eq_true.mpr hdig)]
      rfl
    · have hm : matchLit "bootanimation".data name.data = some (ds ++ ['\n']) :=
        (matchLit_eq_some_iff _ _ _).mpr ⟨ps, by rw [hcase, List.append_assoc], hmap⟩
      rw [boot_group_of_matchLit hm]
      have hnd : ¬((ds ++ ['\n']).all Char.isDigit = true) := by
        intro hall
        have := List.all_eq_true.mp hall '\n' (by simp)
        simp at this
      rw [if_neg hnd]
      have hdrop : (ds ++ ['\n']).dropLast = ds := List.dropLast_concat
      have hlast : (ds ++ ['\n']).getLast? = some '\n' := List.getLast?_concat ds
      rw [if_pos (by
        rw [hdrop, hlast]
        simp only [Bool.and_eq_true, List.all_eq_true, decide_eq_true_eq]
        exact ⟨hdig, trivial⟩)]
      rfl

theorem boot_group_no_dot (name : String) (h : (boot_group name).isSome = true) :
    '.' ∉ name.data := by
  rcases (boot_group_isSome_iff name).mp h with ⟨ps, ds, hmap, hdig, hcase⟩
  intro hdot
  have hps : '.' ∉ ps := by
    intro hp
    have hmem := List.mem_map_of_mem Char.toLower hp
    rw [hmap] at hmem
    have : Char.toLower '.' = '.' := by decide
    rw [this] at hmem
    exact absurd hmem (by decide)
  have hds : '.' ∉ ds := by
    intro hd
    have := hdig '.' hd
    simp at this
  rcases hcase with hcase | hcase
  · rw [hcase] at hdot
    rcases List.mem_append.mp hdot with h1 | h1
    · exact hps h1
    · exact hds h1
  · rw [hcase] at hdot
    rcases List.mem_append.mp hdot with h1 | h1
    · rcases List.mem_append.mp h1 with h2 | h2
      · exact hps h2
      · exact hds h2
    · simp at h1

/-! Facts about suffix replacement and the processing loop. -/

theorem string_append_data (s t : String) : s ++ t = String.mk (s.data ++ t.data) := by
  cases s; cases t; rfl

theorem with_suffix_zip_no_dot (name : String) (h : '.' ∉ name.data) :
    with_suffix_zip name = name ++ ".zip" := by
  have hfind : name.data.reverse.findIdx? (fun c => c = '.') = none := by
    apply List.findIdx?_eq_none_iff.mpr
    intro x hx
    have hxm : x ∈ name.data := List.mem_reverse.mp hx
    have hxne : x ≠ '.' := by
      intro h0
      exact h (h0 ▸ hxm)
    simpa using hxne
  rw [with_suffix_zip, last_dot_idx, hfind, string_append_data]

theorem zip_folder_store_only_eq (oracle : String → Bool) (fp : String) (folder : FSNode)
    (oz : String) :
    zip_folder_store_only oracle fp folder oz =
      if oracle fp then (false, [])
      else (true, [⟨oz, ZMethod.stored, zipEntries folder⟩]) := by
  rw [zip_folder_store_only, zip_write_attempt]
  by_cases h : oracle fp = true
  · rw [if_pos h, if_pos h]
  · rw [if_neg h, if_neg h]

theorem process_folders_cons_invalid (oracle : String → Bool) (e : String × FSNode)
    (rest : List (String × FSNode)) (h : is_valid_bootanimation_folder e.2 = false) :
    process_folders oracle (e :: rest) =
      ((process_folders oracle rest).1, (process_folders oracle rest).2.1 + 1,
       (process_folders oracle rest).2.2) := by
  rw [process_folders, h]
  rfl

theorem process_folders_cons_err (oracle : String → Bool) (e : String × FSNode)
    (rest : List (String × FSNode)) (hv : is_valid_bootanimation_folder e.2 = true)
    (ho : oracle e.1 = true) :
    process_folders oracle (e :: rest) =
      ((process_folders oracle rest).1, (process_folders oracle rest).2.1 + 1,
       (process_folders oracle rest).2.2) := by
  simp [process_folders, hv, ho, zip_folder_store_only_eq]

theorem process_folders_cons_ok (oracle : String → Bool) (e : String × FSNode)
    (rest : List (String × FSNode)) (hv : is_valid_bootanimation_folder e.2 = true)
    (ho : oracle e.1 = false) :
    process_folders oracle (e :: rest) =
      ((process_folders oracle rest).1 + 1, (process_folders oracle rest).2.1,
       Archive.mk (with_suffix_zip e.1) ZMethod.stored (zipEntries e.2) ::
         (process_folders oracle rest).2.2) := by
  simp [process_folders, hv, ho, zip_folder_store_only_eq]

theorem process_folders_counts (oracle : String → Bool) :
    ∀ l : List (String × FSNode),
      (process_folders oracle l).1 =
        (l.filter (fun e => is_valid_bootanimation_folder e.2 && !oracle e.1)).length ∧
      (process_folders oracle l).2.1 =
        (l.filter (fun e => !is_valid_bootanimation_folder e.2 || oracle e.1)).length := by
  intro l
  induction l with
  | nil => exact ⟨rfl, rfl⟩
  | cons e rest ih =>
      by_cases hv : is_valid_bootanimation_folder e.2 = true
      · by_cases ho : oracle e.1 = true
        · rw [process_folders_cons_err oracle e rest hv ho]
          constructor
          · simp [List.filter_cons, hv, ho, ih.1]
          · simp [List.filter_cons, hv, ho, ih.2]
        · rw [process_folders_cons_ok oracle e rest hv (Bool.not_eq_true _ ▸ ho)]
          constructor
          · simp [List.filter_cons, hv, Bool.not_eq_true _ ▸ ho, ih.1]
          · simp [List.filter_cons, hv, Bool.not_eq_true _ ▸ ho, ih.2]
      · rw [process_folders_cons_invalid oracle e rest (Bool.not_eq_true _ ▸ hv)]
        constructor
        · simp [List.filter_cons, Bool.not_eq_true _ ▸ hv, ih.1]
        · simp [List.filter_cons, Bool.not_eq_true _ ▸ hv, ih.2]

theorem process_folders_total (oracle : String → Bool) (l : List (String × FSNode)) :
    (process_folders oracle l).1 + (process_folders oracle l).2.1 = l.length := by
  induction l with
  | nil => rfl
  | cons e rest ih =>
      by_cases hv : is_valid_bootanimation_folder e.2 = true
      · by_cases ho : oracle e.1 = true
        · rw [process_folders_cons_err oracle e rest hv ho]
          simp only [List.length_cons]
          omega
        · rw [process_folders_cons_ok oracle e rest hv (Bool.not_eq_true _ ▸ ho)]
          simp only [List.length_cons]
          omega
      · rw [process_folders_cons_invalid oracle e rest (Bool.not_eq_true _ ▸ hv)]
        simp only [List.length_cons]
        omega

theorem find_perm (dirEntries : List (String × FSNode)) :
    (find_bootanimation_folders dirEntries).Perm
      (dirEntries.filter (fun e => e.2.isDir && (boot_group e.1).isSome)) :=
  isort_perm _ _

/-- Transfer of the implementation sort key order to the specification
ordering on names. -/
theorem key_le_spec_precedes (a b : String)
    (h : key_le (sort_key a) (sort_key b) = true) : spec_precedes a b := by
  rw [spec_precedes]
  cases ha : boot_group a with
  | none => simp [suffix_val, ha]
  | some ga =>
      cases ga with
      | nil => simp [suffix_val, ha]
      | cons c cs =>
          have hsa : sort_key a = (1, digitsToNat (c :: cs)) := by
            rw [sort_key, ha]
          cases hb : boot_group b with
          | none =>
              have hsb : sort_key b = (0, 0) := by rw [sort_key, hb]
              rw [hsa, hsb, key_le_iff] at h
              omega
          | some gb =>
              cases gb with
              | nil =>
                  have hsb : sort_key b = (0, 0) := by rw [sort_key, hb]
                  rw [hsa, hsb, key_le_iff] at h
                  omega
              | cons d ds =>
                  have hsb : sort_key b = (1, digitsToNat (d :: ds)) := by
                    rw [sort_key, hb]
                  rw [hsa, hsb, key_le_iff] at h
                  simp only [suffix_val, ha, hb]
                  omega

/-- Two entry listings that resolve every name identically expose the same
kind of node along every path. -/
theorem kindAt_congr_of_lookup (esA esB : List (String × FSNode))
    (h : ∀ s, lookupEntry esA s = lookupEntry esB s) :
    ∀ p, kindAt (FSNode.dir esA) p = kindAt (FSNode.dir esB) p := by
  intro p
  cases p with
  | nil => rfl
  | cons s q => rw [kindAt, kindAt, follow_dir_cons, follow_dir_cons, h s]

/-- The two concrete listings resolve every name identically. -/
theorem lookup_listingA_listingB : ∀ s, lookupEntry listingA s = lookupEntry listingB s := by
  intro s
  by_cases h1 : ("part0" : String) = s
  · have h2 : ¬(("desc.txt" : String) = s) := by
      rw [← h1]
      decide
    simp [listingA, listingB, lookupEntry, h1, h2]
  · by_cases h2 : ("desc.txt" : String) = s
    · simp [listingA, listingB, lookupEntry, h1, h2]
    · simp [listingA, listingB, lookupEntry, h1, h2]

/-- Positivity of the failed counter spelt as the existence of a discovered
folder that was invalid or whose write raised. -/
theorem failed_pos_iff (oracle : String → Bool) (l : List (String × FSNode)) :
    0 < (process_folders oracle l).2.1 ↔
      ∃ e ∈ l, is_valid_bootanimation_folder e.2 = false ∨ oracle e.1 = true := by
  rw [(process_folders_counts oracle l).2, List.length_pos]
  constructor
  · intro hne
    rcases List.exists_mem_of_ne_nil _ hne with ⟨e, he⟩
    rcases List.mem_filter.mp he with ⟨hel, hcond⟩
    refine ⟨e, hel, ?_⟩
    rcases Bool.or_eq_true_iff.mp hcond with hc | hc
    · exact Or.inl (by simpa using hc)
    · exact Or.inr hc
  · rintro ⟨e, hel, hcond⟩
    apply List.ne_nil_of_mem (a := e)
    apply List.mem_filter.mpr
    refine ⟨hel, ?_⟩
    rcases hcond with hc | hc
    · simp [hc]
    · simp [hc]

/-! Claim theorems. -/

/-- C1: for a well-formed folder that passes validation, when the archive
write does not raise, archiving adds exactly one archive, at the folder path
extended with .zip (a name matched by discovery contains no dot, so the
suffix is appended to the folder's own path), stored without compression,
and its entries are precisely the paths, relative to the folder root, of the
regular files found recursively under the folder. -/
theorem C1_store_only_archive (oracle : String → Bool) (nm : String) (folder : FSNode)
    (rest : List (String × FSNode))
    (hwf : folder.wf = true)
    (hv : is_valid_bootanimation_folder folder = true)
    (ho : oracle nm = false)
    (hnm : (boot_group nm).isSome = true) :
    process_folders oracle ((nm, folder) :: rest) =
      ((process_folders oracle rest).1 + 1, (process_folders oracle rest).2.1,
       Archive.mk (nm ++ ".zip") ZMethod.stored (zipEntries folder) ::
         (process_folders oracle rest).2.2) ∧
    (∀ p, p ∈ zipEntries folder ↔ (p ≠ [] ∧ follow folder p = some FSNode.file)) := by
  constructor
  · rw [process_folders_cons_ok oracle (nm, folder) rest hv ho,
      with_suffix_zip_no_dot nm (boot_group_no_dot nm hnm)]
  · exact mem_zipEntries_iff folder hwf

/-- C1 witness: the theorem instantiated on a concrete valid folder. -/
theorem C1_store_only_archive_witness :
    folder_ok.wf = true ∧
    is_valid_bootanimation_folder folder_ok = true ∧
    no_err "bootanimation" = false ∧
    (boot_group "bootanimation").isSome = true ∧
    process_folders no_err [("bootanimation", folder_ok)] =
      (1, 0, [Archive.mk "bootanimation.zip" ZMethod.stored
        [["desc.txt"], ["part0", "a.png"], ["part0", "b.png"]]]) ∧
    (["part0", "a.png"] ∈ zipEntries folder_ok ↔
      (["part0", "a.png"] ≠ [] ∧ follow folder_ok ["part0", "a.png"] = some FSNode.file)) := by
  refine ⟨by decide, rfl, rfl, rfl, ?_, ?_⟩
  · exact ((C1_store_only_archive no_err "bootanimation" folder_ok [] (by decide) rfl rfl
      rfl).1).trans rfl
  · exact (C1_store_only_archive no_err "bootanimation" folder_ok [] (by decide) rfl rfl
      rfl).2 ["part0", "a.png"]

/-- C2 counterexample: a valid folder whose part0 directory is empty yields
the archive entry list with the single file entry desc.txt; the directory
part0 exists under the folder but contributes no entry, so the archive does
not contain directory entries. -/
theorem C2_counterexample :
    is_valid_bootanimation_folder folder_empty_part0 = true ∧
    zipEntries folder_empty_part0 = [["desc.txt"]] ∧
    kindAt folder_empty_part0 ["part0"] = some true ∧
    (["part0"] ∉ zipEntries folder_empty_part0) ∧
    kindAt folder_empty_part0 ["desc.txt"] = some false :=
  ⟨rfl, rfl, rfl, by decide, rfl⟩

/-- C2 (amended): the archive of a well-formed folder contains file entries
only, never an entry for a directory; directory and file names are
enumerated in sorted order at each level, so the entry sequence is fully
determined by which paths resolve to which kind of node: any two well-formed
trees exposing the same kinds along every path, whatever the order of their
directory listings, produce identical entry sequences. -/
theorem C2_file_entries_deterministic (f : FSNode) (hwf : f.wf = true) :
    (∀ p ∈ zipEntries f, kindAt f p = some false) ∧
    (∀ g : FSNode, g.wf = true → (∀ p, kindAt f p = kindAt g p) →
      zipEntries f = zipEntries g) := by
  constructor
  · intro p hp
    rcases (mem_zipEntries_iff f hwf p).mp hp with ⟨_, hf⟩
    rw [kindAt, hf]
    rfl
  · intro g hg hk
    exact zipEntries_ext f hwf g hg hk

/-- C2 witness: two listings of the same folder in different orders have
identical archives, and a concrete entry is a file entry. -/
theorem C2_file_entries_deterministic_witness :
    (FSNode.dir listingA).wf = true ∧
    (FSNode.dir listingB).wf = true ∧
    listingA.map Prod.fst ≠ listingB.map Prod.fst ∧
    zipEntries (FSNode.dir listingA) = zipEntries (FSNode.dir listingB) ∧
    kindAt (FSNode.dir listingA) ["desc.txt"] = some false := by
  refine ⟨by decide, by decide, by decide, ?_, ?_⟩
  · exact (C2_file_entries_deterministic (FSNode.dir listingA) (by decide)).2
      (FSNode.dir listingB) (by decide)
      (kindAt_congr_of_lookup listingA listingB lookup_listingA_listingB)
  · exact (C2_file_entries_deterministic (FSNode.dir listingA) (by decide)).1
      ["desc.txt"] (by decide)

/-- C3: validation succeeds iff the folder directly contains a directory
named part0 and a regular file named desc.txt; nothing else influences the
result, since any folder resolving those two names identically validates
identically. -/
theorem C3_validation_iff (folder : FSNode) :
    (is_valid_bootanimation_folder folder = true ↔
      ((∃ n, childNode folder "part0" = some n ∧ n.isDir = true) ∧
       (∃ m, childNode folder "desc.txt" = some m ∧ m.isFile = true))) ∧
    (∀ g : FSNode, childNode folder "part0" = childNode g "part0" →
      childNode folder "desc.txt" = childNode g "desc.txt" →
      is_valid_bootanimation_folder folder = is_valid_bootanimation_folder g) := by
  constructor
  · rw [is_valid_bootanimation_folder]
    cases hp : childNode folder "part0" with
    | none => simp [path_exists, opt_is_dir, hp]
    | some n =>
        cases hd : childNode folder "desc.txt" with
        | none => simp [path_exists, opt_is_file, opt_is_dir, hd, hp]
        | some m => simp [path_exists, opt_is_dir, opt_is_file, hp, hd]
  · intro g h1 h2
    rw [is_valid_bootanimation_folder, is_valid_bootanimation_folder, h1, h2]

/-- C3 witness: the characterization instantiated on concrete folders, with
the invariance applied to two listings resolving the two names alike. -/
theorem C3_validation_iff_witness :
    is_valid_bootanimation_folder folder_ok = true ∧
    is_valid_bootanimation_folder (FSNode.dir listingA) =
      is_valid_bootanimation_folder (FSNode.dir listingB) := by
  constructor
  · exact (C3_validation_iff folder_ok).1.mpr
      ⟨⟨FSNode.dir [("b.png", FSNode.file), ("a.png", FSNode.file)], rfl, rfl⟩,
       ⟨FSNode.file, rfl, rfl⟩⟩
  · exact (C3_validation_iff (FSNode.dir listingA)).2 (FSNode.dir listingB) rfl rfl

/-- C4 counterexample: discovery returns a directory named bootanimation
followed by a line feed, although that name is not the literal bootanimation
followed by a string of digits; the Python dollar anchor also accepts one
trailing newline. -/
theorem C4_counterexample :
    find_bootanimation_folders [("bootanimation\n", FSNode.dir [])] =
      [("bootanimation\n", FSNode.dir [])] ∧
    ¬ spec_boot_name "bootanimation\n" := by
  refine ⟨rfl, ?_⟩
  rintro ⟨ps, ds, hmap, hdig, heq⟩
  have hlen : ps.length = 13 := by
    have h := congrArg List.length hmap
    simpa using h
  have hds : ds = ['\n'] := by
    have h3 := congrArg (List.drop 13) heq
    rw [← hlen, List.drop_left] at h3
    rw [← h3, hlen]
    rfl
  have := hdig '\n' (by rw [hds]; exact List.mem_singleton.mpr rfl)
  simp at this

/-- C4 (amended): discovery returns exactly those immediate entries that are
directories whose name is, case-insensitively, the literal bootanimation
followed by an optional digit string and possibly one trailing newline (an
artifact of the Python dollar anchor); non-directories are excluded and no
other entry is returned. -/
theorem C4_discovery_matches (dirEntries : List (String × FSNode)) :
    (find_bootanimation_folders dirEntries).Perm
      (dirEntries.filter (fun e => e.2.isDir && (boot_group e.1).isSome)) ∧
    (∀ name, (boot_group name).isSome = true ↔ spec_boot_name_nl name) :=
  ⟨find_perm dirEntries, boot_group_isSome_iff⟩

/-- C5: in the discovery output, every name without a digit suffix precedes
every name with one, and digit-suffixed names appear in ascending numeric
order of their suffix. -/
theorem C5_discovery_order (dirEntries : List (String × FSNode)) :
    (find_bootanimation_folders dirEntries).Pairwise
      (fun x y => spec_precedes x.1 y.1) := by
  have hs := pairwise_isort
    (fun a b : String × FSNode => key_le (sort_key a.1) (sort_key b.1))
    (fun a b c => key_le_trans _ _ _) (fun a b => key_le_total _ _)
    (dirEntries.filter (fun e => e.2.isDir && (boot_group e.1).isSome))
  exact hs.imp (fun h => key_le_spec_precedes _ _ h)

/-- C6: the exit status is nonzero exactly when at least one discovered
folder of the argument directory was skipped or failed; it is also nonzero,
with the usage message printed, when no argument is given, and nonzero when
the argument does not resolve or resolves to a non-directory. -/
theorem C6_exit_status (args : List String) (fs : String → Option FSNode)
    (oracle : String → Bool) :
    (args = [] → main_run args fs oracle = (1, true)) ∧
    (∀ a rest, args = a :: rest → fs a = none → main_run args fs oracle = (1, false)) ∧
    (∀ a rest, args = a :: rest → fs a = some FSNode.file →
      main_run args fs oracle = (1, false)) ∧
    (∀ a rest es, args = a :: rest → fs a = some (FSNode.dir es) →
      ((main_run args fs oracle).1 ≠ 0 ↔
        ∃ e ∈ find_bootanimation_folders es,
          is_valid_bootanimation_folder e.2 = false ∨ oracle e.1 = true)) := by
  refine ⟨?_, ?_, ?_, ?_⟩
  · rintro rfl
    rfl
  · rintro a rest rfl hfs
    simp [main_run, hfs]
  · rintro a rest rfl hfs
    simp [main_run, hfs]
  · rintro a rest es rfl hfs
    have hmr : main_run (a :: rest) fs oracle =
        (if 0 < (process_directory oracle es).2.1 then 1 else 0, false) := by
      simp [main_run, hfs]
    rw [hmr]
    by_cases hpos : 0 < (process_directory oracle es).2.1
    · simp only [hpos, if_true]
      constructor
      · intro _
        exact (failed_pos_iff oracle (find_bootanimation_folders es)).mp hpos
      · intro _
        exact one_ne_zero
    · simp only [hpos, if_false]
      constructor
      · intro h
        exact absurd rfl h
      · intro h
        exact absurd ((failed_pos_iff oracle (find_bootanimation_folders es)).mpr h) hpos

/-- C6 witness: no argument gives usage and status 1; an unresolvable path
gives status 1; a directory with one invalid bootanimation folder gives a
nonzero status; a directory with one valid folder gives status 0. -/
theorem C6_exit_status_witness :
    main_run [] fs_one_bad no_err = (1, true) ∧
    main_run ["q"] fs_one_bad no_err = (1, false) ∧
    (main_run ["d"] fs_one_bad no_err).1 ≠ 0 := by
  refine ⟨(C6_exit_status [] fs_one_bad no_err).1 rfl,
    (C6_exit_status ["q"] fs_one_bad no_err).2.1 "q" [] rfl rfl, ?_⟩
  apply ((C6_exit_status ["d"] fs_one_bad no_err).2.2.2 "d" []
    [("bootanimation", FSNode.dir [])] rfl rfl).mpr
  exact ⟨("bootanimation", FSNode.dir []), List.mem_singleton.mpr rfl, Or.inl rfl⟩

/-- C7: a folder has exactly two failure modes.  An invalid folder is
skipped, counted failed, before any write is attempted; a valid folder whose
write raises has the exception caught inside the archiving step, which
returns failure with no archive instead of propagating; in both cases, as in
the success case, the results of the remaining folders are unchanged, so
processing continues. -/
theorem C7_failure_modes (oracle : String → Bool) (e : String × FSNode)
    (rest : List (String × FSNode)) :
    (is_valid_bootanimation_folder e.2 = false →
      process_folders oracle (e :: rest) =
        ((process_folders oracle rest).1, (process_folders oracle rest).2.1 + 1,
         (process_folders oracle rest).2.2)) ∧
    (is_valid_bootanimation_folder e.2 = true → oracle e.1 = true →
      zip_write_attempt oracle e.1 e.2 (with_suffix_zip e.1) =
        Except.error "zip write raised" ∧
      zip_folder_store_only oracle e.1 e.2 (with_suffix_zip e.1) = (false, []) ∧
      process_folders oracle (e :: rest) =
        ((process_folders oracle rest).1, (process_folders oracle rest).2.1 + 1,
         (process_folders oracle rest).2.2)) ∧
    (is_valid_bootanimation_folder e.2 = true → oracle e.1 = false →
      process_folders oracle (e :: rest) =
        ((process_folders oracle rest).1 + 1, (process_folders oracle rest).2.1,
         Archive.mk (with_suffix_zip e.1) ZMethod.stored (zipEntries e.2) ::
           (process_folders oracle rest).2.2)) := by
  refine ⟨?_, ?_, ?_⟩
  · intro hv
    exact process_folders_cons_invalid oracle e rest hv
  · intro hv ho
    refine ⟨?_, ?_, process_folders_cons_err oracle e rest hv ho⟩
    · rw [zip_write_attempt, if_pos ho]
    · rw [zip_folder_store_only_eq, if_pos ho]
  · intro hv ho
    exact process_folders_cons_ok oracle e rest hv ho

/-- C7 witness: a concrete skipped folder and a concrete caught write
exception, each counted as one failure with processing completing. -/
theorem C7_failure_modes_witness :
    process_folders no_err [("bootanimation", FSNode.dir [])] = (0, 1, []) ∧
    zip_folder_store_only all_err "bootanimation" folder_ok
      (with_suffix_zip "bootanimation") = (false, []) ∧
    process_folders all_err [("bootanimation", folder_ok)] = (0, 1, []) := by
  refine ⟨?_, ?_, ?_⟩
  · exact (C7_failure_modes no_err ("bootanimation", FSNode.dir []) []).1 rfl
  · exact ((C7_failure_modes all_err ("bootanimation", folder_ok) []).2.1 rfl rfl).2.1
  · exact ((C7_failure_modes all_err ("bootanimation", folder_ok) []).2.1 rfl rfl).2.2

/-- C8: successful plus failed equals the number of discovered folders;
successful counts exactly the valid folders whose write succeeded, failed
counts exactly the others (skipped folders included), so each discovered
folder feeds exactly one counter. -/
theorem C8_counter_invariant (oracle : String → Bool)
    (dirEntries : List (String × FSNode)) :
    (process_directory oracle dirEntries).1 + (process_directory oracle dirEntries).2.1 =
      (find_bootanimation_folders dirEntries).length ∧
    (process_directory oracle dirEntries).1 =
      ((find_bootanimation_folders dirEntries).filter
        (fun e => is_valid_bootanimation_folder e.2 && !oracle e.1)).length ∧
    (process_directory oracle dirEntries).2.1 =
      ((find_bootanimation_folders dirEntries).filter
        (fun e => !is_valid_bootanimation_folder e.2 || oracle e.1)).length :=
  ⟨process_folders_total oracle _, (process_folders_counts oracle _).1,
   (process_folders_counts oracle _).2⟩

/-- C9: a directory whose listing has no subdirectory matching the pattern
processes to zero successes, zero failures and no archive, and the program
exits with status 0. -/
theorem C9_no_match_success (a : String) (rest : List String)
    (fs : String → Option FSNode) (oracle : String → Bool)
    (es : List (String × FSNode))
    (hfs : fs a = some (FSNode.dir es))
    (hnone : ∀ e ∈ es, ¬(e.2.isDir = true ∧ (boot_group e.1).isSome = true)) :
    process_directory oracle es = (0, 0, []) ∧
    main_run (a :: rest) fs oracle = (0, false) := by
  have hfil : es.filter (fun e => e.2.isDir && (boot_group e.1).isSome) = [] := by
    apply List.filter_eq_nil_iff.mpr
    intro e he
    rw [Bool.and_eq_true]
    exact hnone e he
  have hfind : find_bootanimation_folders es = [] := by
    rw [find_bootanimation_folders]
    rw [hfil]
    rfl
  have hpd : process_directory oracle es = (0, 0, []) := by
    rw [process_directory, hfind]
    rfl
  refine ⟨hpd, ?_⟩
  simp [main_run, hfs, hpd]

/-- C9 witness: a concrete directory with entries other and x yields counts
(0, 0), no archive, and exit status 0. -/
theorem C9_no_match_success_witness :
    process_directory no_err [("other", FSNode.dir []), ("x", FSNode.file)] = (0, 0, []) ∧
    main_run ["d"] fs_no_match no_err = (0, false) :=
  C9_no_match_success "d" [] fs_no_match no_err
    [("other", FSNode.dir []), ("x", FSNode.file)] rfl (by decide)

/-- C10: the reported missing-artifact list is computed from bare existence
checks only: when both names exist it is empty, even when validation fails
because a kind is wrong, and in that case the folder is still skipped and
counted as failed. -/
theorem C10_missing_report (folder : FSNode)
    (hp : path_exists (childNode folder "part0") = true)
    (hd : path_exists (childNode folder "desc.txt") = true) :
    missing_artifacts folder = [] ∧
    ((opt_is_dir (childNode folder "part0") = false ∨
      opt_is_file (childNode folder "desc.txt") = false) →
      is_valid_bootanimation_folder folder = false ∧
      ∀ (oracle : String → Bool) (nm : String) (rest : List (String × FSNode)),
        process_folders oracle ((nm, folder) :: rest) =
          ((process_folders oracle rest).1, (process_folders oracle rest).2.1 + 1,
           (process_folders oracle rest).2.2)) := by
  constructor
  · rw [missing_artifacts, hp, hd]
    rfl
  · intro hbad
    have hinv : is_valid_bootanimation_folder folder = false := by
      rcases hbad with hb | hb
      · simp [is_valid_bootanimation_folder, hb]
      · simp [is_valid_bootanimation_folder, hb]
    exact ⟨hinv, fun oracle nm rest =>
      process_folders_cons_invalid oracle (nm, folder) rest hinv⟩

/-- C10 witness: a folder whose part0 is a regular file has an empty missing
list, fails validation and is counted as failed. -/
theorem C10_missing_report_witness :
    path_exists (childNode folder_part0_file "part0") = true ∧
    path_exists (childNode folder_part0_file "desc.txt") = true ∧
    missing_artifacts folder_part0_file = [] ∧
    is_valid_bootanimation_folder folder_part0_file = false ∧
    process_folders no_err [("bootanimation", folder_part0_file)] = (0, 1, []) := by
  have h := C10_missing_report folder_part0_file rfl rfl
  refine ⟨rfl, rfl, h.1, (h.2 (Or.inl rfl)).1, ?_⟩
  exact (h.2 (Or.inl rfl)).2 no_err "bootanimation" []
